import Mathlib

/-!
Shallow embedding of the tree search/filter engine of `src/src/App.tsx`
(Bubble App JSON Explorer): the recursive `filterTree` function, the
`useMemo` wrapper computing `filteredJson`/`matched`, and the
`shouldExpandNodeInitially` callback.
-/

mutual
/-- JSON-like document values, as handled by `filterTree`.  Mappings and
sequences both carry an ordered list of string-keyed entries: JavaScript
`for...in` iterates object keys in insertion order and array indices
(stringified) in index order, so a sequence is a keyed container whose keys
are `"0"`, `"1"`, ... in a well-formed input; a filtered (sparse) array
keeps the original index keys of its surviving elements. -/
inductive JValue : Type where
  | str : String → JValue
  | num : Int → JValue
  | bool : Bool → JValue
  | null : JValue
  | obj : JEntries → JValue
  | arr : JEntries → JValue

/-- Ordered entry list of a mapping or sequence. -/
inductive JEntries : Type where
  | nil : JEntries
  | cons : String → JValue → JEntries → JEntries
end

deriving instance DecidableEq for JValue
deriving instance Repr for JValue

/-- Is the candidate list a contiguous sublist of the second list
(JavaScript `String.prototype.includes` on the char level)? -/
def charsContain (t : List Char) : List Char → Bool
  | [] => t.isPrefixOf []
  | c :: rest => t.isPrefixOf (c :: rest) || charsContain t rest

/-- `s.toLowerCase().includes(term)` of JavaScript: the term (already
lowercased by the caller) occurs as a contiguous substring of the
lowercased `s`.  Lowercasing is `Char.toLower` applied to each character
of `s`, the same mapping as `String.toLower`. -/
def jsIncludes (s term : String) : Bool :=
  charsContain term.data (s.data.map Char.toLower)

mutual
/-- The body of `filterTree` (App.tsx lines 75-103).  The JavaScript
function returns the pruned value or `null` (here `Option JValue`) and
appends match paths to a shared `matches` array; we return the list of
paths appended by the call, in append order. -/
def filterTree (v : JValue) (term : String) (path : List String) :
    Option JValue × List (List String) :=
  match v with
  | .str s => if jsIncludes s term then (some (.str s), [path]) else (none, [])
  | .num _ => (none, [])
  | .bool _ => (none, [])
  | .null => (none, [])
  | .obj es =>
      let r := filterEntries es term path
      (if r.2.2 then some (.obj r.1) else none, r.2.1)
  | .arr es =>
      let r := filterEntries es term path
      (if r.2.2 then some (.arr r.1) else none, r.2.1)
termination_by structural v

/-- The `for (const key in obj)` loop of `filterTree` (App.tsx lines
90-101): returns the kept entries, the match paths appended by the loop
(the recursive call's matches first, then — when the key matches — the
entry's child path), and the `hasMatchHere` flag. -/
def filterEntries (es : JEntries) (term : String) (path : List String) :
    JEntries × List (List String) × Bool :=
  match es with
  | .nil => (.nil, [], false)
  | .cons key val rest =>
      let newPath := path ++ [key]
      let keyMatches := jsIncludes key term
      let fc := filterTree val term newPath
      let r := filterEntries rest term path
      if keyMatches then
        (.cons key val r.1, fc.2 ++ [newPath] ++ r.2.1, true)
      else
        match fc.1 with
        | some f => (.cons key f r.1, fc.2 ++ r.2.1, true)
        | none => (r.1, fc.2 ++ r.2.1, r.2.2)
termination_by structural es
end

/-- The entries as a plain association list. -/
def JEntries.toList : JEntries → List (String × JValue)
  | .nil => []
  | .cons k v rest => (k, v) :: rest.toList

/-- Concatenation of entry lists. -/
def JEntries.append : JEntries → JEntries → JEntries
  | .nil, es => es
  | .cons k v rest, es => .cons k v (rest.append es)

/-- The keys of an entry list, in order. -/
def JEntries.keys : JEntries → List String
  | .nil => []
  | .cons k _ rest => k :: rest.keys

/-- First entry bound to a key (JavaScript property lookup; objects have
unique keys, so first = only). -/
def JEntries.find : JEntries → String → Option JValue
  | .nil, _ => none
  | .cons k v rest, key => if k = key then some v else rest.find key

/-- Value reached from `v` by following a key-path (array indices are
stringified keys). -/
def getAtPath : JValue → List String → Option JValue
  | v, [] => some v
  | .obj es, k :: ps => match es.find k with
    | some v => getAtPath v ps
    | none => none
  | .arr es, k :: ps => match es.find k with
    | some v => getAtPath v ps
    | none => none
  | _, _ :: _ => none

/-- JavaScript falsiness of the `jsonData` state (`!jsonData`): absent
(`null` initial state), `null`, `false`, `0` and `""` are falsy. -/
def jsFalsy : Option JValue → Bool
  | none => true
  | some .null => true
  | some (.bool b) => !b
  | some (.num n) => n == 0
  | some (.str s) => s == ""
  | some (.obj _) => false
  | some (.arr _) => false

/-- `searchTerm.trim().toLowerCase()` of App.tsx line 106: strip leading
and trailing whitespace, then lowercase each character. -/
def jsTrimLower (s : String) : String :=
  ⟨(((s.data.dropWhile Char.isWhitespace).reverse.dropWhile
      Char.isWhitespace).reverse).map Char.toLower⟩

/-- The `useMemo` computing `{ filteredJson, matched }` (App.tsx lines
105-112): with an empty (after trimming) term or a falsy document it
returns the document itself and no matches; otherwise it runs
`filterTree` and replaces a `null` result by an empty mapping
(`|| {}`). -/
def runFilter (jsonData : Option JValue) (searchTerm : String) :
    Option JValue × List (List String) :=
  let term := jsTrimLower searchTerm
  if term == "" || jsFalsy jsonData then (jsonData, [])
  else
    match jsonData with
    | none => (none, [])
    | some d =>
        let r := filterTree d term []
        (some (r.1.getD (.obj .nil)), r.2)

/-- `keyPath.join('.')` / `mp.join('.')` of App.tsx lines 425-426:
JavaScript `Array.join('.')` on the char level. -/
def dotJoin : List String → List Char
  | [] => []
  | [s] => s.data
  | s :: t :: rest => s.data ++ '.' :: dotJoin (t :: rest)

/-- The `shouldExpandNodeInitially` callback (App.tsx lines 422-431):
under a truthy search term a node expands iff some matched path, joined
with dots, starts with the node's joined key-path; otherwise only depth-1
nodes expand. -/
def shouldExpandNodeInitially (searchTerm : String)
    (matchedPaths : List (List String)) (keyPath : List String) : Bool :=
  if searchTerm == "" then keyPath.length == 1
  else matchedPaths.any fun mp => (dotJoin keyPath).isPrefixOf (dotJoin mp)

mutual
/-- Match-path list as the spec describes it (§4.1 note, glossary):
depth-first, following each container's natural iteration order, all
matches found inside an entry's subtree listed before the key-match
recorded for the entry itself. -/
def specMatches : JValue → String → List String → List (List String)
  | .str s, term, path => if jsIncludes s term then [path] else []
  | .num _, _, _ => []
  | .bool _, _, _ => []
  | .null, _, _ => []
  | .obj es, term, path => specEntriesMatches es term path
  | .arr es, term, path => specEntriesMatches es term path
termination_by structural v => v

/-- Entry-list part of `specMatches`: per entry, the subtree's matches
first, then the key-match (if the key matches), then the later
entries. -/
def specEntriesMatches : JEntries → String → List String → List (List String)
  | .nil, _, _ => []
  | .cons k v rest, term, path =>
      specMatches v term (path ++ [k])
        ++ (if jsIncludes k term then [path ++ [k]] else [])
        ++ specEntriesMatches rest term path
termination_by structural es => es
end

mutual
/-- Structural-subtree relation of spec §3/§8: the first tree is obtained
from the second by dropping entries (keeping key names, values and the
relative order of survivors) or keeping a subtree verbatim. -/
inductive IsSub : JValue → JValue → Prop where
  | refl (v : JValue) : IsSub v v
  | obj {es es' : JEntries} : IsSubE es' es → IsSub (.obj es') (.obj es)
  | arr {es es' : JEntries} : IsSubE es' es → IsSub (.arr es') (.arr es)

/-- Entry-list part of `IsSub`: a subsequence with identical keys whose
values are themselves structural subtrees. -/
inductive IsSubE : JEntries → JEntries → Prop where
  | nil : IsSubE .nil .nil
  | skip {es' es : JEntries} {k : String} {v : JValue} :
      IsSubE es' es → IsSubE es' (.cons k v es)
  | keep {es' es : JEntries} {k : String} {v' v : JValue} :
      IsSub v' v → IsSubE es' es → IsSubE (.cons k v' es') (.cons k v es)
end

/-- Entries of a JavaScript array `[v0, v1, ...]` as seen by `for...in`:
stringified indices `"i"`, `"i+1"`, ... paired with the elements. -/
def mkArrEntries (i : Nat) : List JValue → JEntries
  | [] => .nil
  | v :: vs => .cons (toString i) v (mkArrEntries (i + 1) vs)

/-- A dense JavaScript array as a document value. -/
def mkArr (l : List JValue) : JValue :=
  .arr (mkArrEntries 0 l)

/-- No duplicates in a key list. -/
def noDup : List String → Bool
  | [] => true
  | k :: ks => decide (k ∉ ks) && noDup ks

mutual
/-- Well-formed documents: every mapping and sequence has pairwise
distinct keys (a JavaScript object cannot repeat a property name, and
array index keys are distinct). -/
def WF : JValue → Bool
  | .str _ => true
  | .num _ => true
  | .bool _ => true
  | .null => true
  | .obj es => noDup es.keys && WFE es
  | .arr es => noDup es.keys && WFE es
termination_by structural v => v

/-- All entry values are well-formed. -/
def WFE : JEntries → Bool
  | .nil => true
  | .cons _ v rest => WF v && WFE rest
termination_by structural es => es
end

/-- Leaves: values `filterTree` never recurses into. -/
def isLeaf : JValue → Bool
  | .str _ => true
  | .num _ => true
  | .bool _ => true
  | .null => true
  | .obj _ => false
  | .arr _ => false

/-- The value-match test of `filterTree`: only string leaves can match by
value (App.tsx lines 76-84); numbers, booleans and null never do. -/
def valueMatch : JValue → String → Bool
  | .str s, term => jsIncludes s term
  | _, _ => false

/-- The location is pruned away: either the whole result is null, or
nothing is reachable at the key-path. -/
def absentIn : Option JValue → List String → Prop
  | none, _ => True
  | some f, p => getAtPath f p = none

/-- The spec's key-match example document `{"match_key": {"a": 1, "b": 2}}`. -/
def exKeyMatch : JValue :=
  .obj (.cons "match_key" (.obj (.cons "a" (.num 1) (.cons "b" (.num 2)
    .nil))) .nil)

/-- The spec's pruning example document `{"x": {"y": "nomatch"}}`. -/
def exPrune : JValue :=
  .obj (.cons "x" (.obj (.cons "y" (.str "nomatch") .nil)) .nil)

theorem JEntries.toList_append (a b : JEntries) :
    (a.append b).toList = a.toList ++ b.toList :=
  match a with
  | .nil => by simp [JEntries.append, JEntries.toList]
  | .cons k v rest => by
      simp [JEntries.append, JEntries.toList, JEntries.toList_append rest b]
termination_by structural a

theorem JEntries.keys_eq_map (es : JEntries) :
    es.keys = es.toList.map Prod.fst :=
  match es with
  | .nil => by simp [JEntries.keys, JEntries.toList]
  | .cons k v rest => by
      simp [JEntries.keys, JEntries.toList, JEntries.keys_eq_map rest]
termination_by structural es

theorem JEntries.find_eq_none (es : JEntries) (k : String) (h : k ∉ es.keys) :
    es.find k = none :=
  match es with
  | .nil => by simp [JEntries.find]
  | .cons k0 v rest => by
      simp only [JEntries.keys, List.mem_cons, not_or] at h
      simp [JEntries.find, Ne.symm h.1, JEntries.find_eq_none rest k h.2]
termination_by structural es

/-- The loop distributes over concatenation of the entry list: results and
match lists concatenate, the kept flags disjoin. -/
theorem filterEntries_append (a b : JEntries) (term : String)
    (path : List String) :
    filterEntries (a.append b) term path =
      ((filterEntries a term path).1.append (filterEntries b term path).1,
       (filterEntries a term path).2.1 ++ (filterEntries b term path).2.1,
       (filterEntries a term path).2.2 || (filterEntries b term path).2.2) :=
  match a with
  | .nil => by simp [JEntries.append, filterEntries]
  | .cons k v rest => by
      have ih := filterEntries_append rest b term path
      by_cases hk : jsIncludes k term = true
      · simp [JEntries.append, filterEntries, hk, ih]
      · simp only [Bool.not_eq_true] at hk
        rcases hf : (filterTree v term (path ++ [k])).1 with _ | f <;>
          simp [JEntries.append, filterEntries, hk, hf, ih]
termination_by structural a

/-- Unfolding of the loop at a key-matching head entry: the entry is kept
with its original value, the recursive call's matches come first, then the
entry's child path, and the flag is set. -/
theorem filterEntries_cons_keyMatch (k : String) (v : JValue)
    (rest : JEntries) (term : String) (path : List String)
    (hk : jsIncludes k term = true) :
    filterEntries (.cons k v rest) term path =
      (.cons k v (filterEntries rest term path).1,
       (filterTree v term (path ++ [k])).2 ++ [path ++ [k]]
         ++ (filterEntries rest term path).2.1,
       true) := by
  simp [filterEntries, hk]

mutual
/-- The match paths appended by `filterTree` are exactly the spec's
depth-first, children-before-key match list. -/
theorem filterTree_matches_spec (v : JValue) (term : String)
    (path : List String) :
    (filterTree v term path).2 = specMatches v term path :=
  match v with
  | .str s => by by_cases h : jsIncludes s term = true <;>
      simp [filterTree, specMatches, h]
  | .num _ => by simp [filterTree, specMatches]
  | .bool _ => by simp [filterTree, specMatches]
  | .null => by simp [filterTree, specMatches]
  | .obj es => by
      simp [filterTree, specMatches, filterEntries_matches_spec es term path]
  | .arr es => by
      simp [filterTree, specMatches, filterEntries_matches_spec es term path]
termination_by structural v

/-- Entry-list part of `filterTree_matches_spec`. -/
theorem filterEntries_matches_spec (es : JEntries) (term : String)
    (path : List String) :
    (filterEntries es term path).2.1 = specEntriesMatches es term path :=
  match es with
  | .nil => by simp [filterEntries, specEntriesMatches]
  | .cons k v rest => by
      have ih1 := filterTree_matches_spec v term (path ++ [k])
      have ih2 := filterEntries_matches_spec rest term path
      by_cases hk : jsIncludes k term = true
      · simp [filterEntries, specEntriesMatches, hk, ih1, ih2]
      · simp only [Bool.not_eq_true] at hk
        rcases hf : (filterTree v term (path ++ [k])).1 with _ | f <;>
          simp [filterEntries, specEntriesMatches, hk, hf, ih1, ih2]
termination_by structural es
end

mutual
/-- Whenever `filterTree` returns a non-null value, that value is a
structural subtree of the input. -/
theorem filterTree_isSub (v : JValue) (term : String) (path : List String)
    (f : JValue) (h : (filterTree v term path).1 = some f) : IsSub f v :=
  match v with
  | .str s => by
      by_cases hs : jsIncludes s term = true
      · simp [filterTree, hs] at h
        subst h; exact IsSub.refl _
      · simp only [Bool.not_eq_true] at hs
        simp [filterTree, hs] at h
  | .num _ => by simp [filterTree] at h
  | .bool _ => by simp [filterTree] at h
  | .null => by simp [filterTree] at h
  | .obj es => by
      rcases hkept : (filterEntries es term path).2.2 with _ | _
      · simp [filterTree, hkept] at h
      · simp [filterTree, hkept] at h
        subst h; exact IsSub.obj (filterEntries_isSub es term path)
  | .arr es => by
      rcases hkept : (filterEntries es term path).2.2 with _ | _
      · simp [filterTree, hkept] at h
      · simp [filterTree, hkept] at h
        subst h; exact IsSub.arr (filterEntries_isSub es term path)
termination_by structural v

/-- The kept entries always form a structural sub-entry-list of the
original entries. -/
theorem filterEntries_isSub (es : JEntries) (term : String)
    (path : List String) : IsSubE (filterEntries es term path).1 es :=
  match es with
  | .nil => by
      have he : (filterEntries JEntries.nil term path).1 = JEntries.nil := by
        simp [filterEntries]
      rw [he]; exact IsSubE.nil
  | .cons k v rest => by
      have ihrest := filterEntries_isSub rest term path
      by_cases hk : jsIncludes k term = true
      · rw [filterEntries_cons_keyMatch k v rest term path hk]
        exact IsSubE.keep (IsSub.refl v) ihrest
      · simp only [Bool.not_eq_true] at hk
        rcases hf : (filterTree v term (path ++ [k])).1 with _ | f
        · have he : (filterEntries (.cons k v rest) term path).1 =
              (filterEntries rest term path).1 := by
            simp [filterEntries, hk, hf]
          rw [he]; exact IsSubE.skip ihrest
        · have he : (filterEntries (.cons k v rest) term path).1 =
              .cons k f (filterEntries rest term path).1 := by
            simp [filterEntries, hk, hf]
          rw [he]
          exact IsSubE.keep (filterTree_isSub v term (path ++ [k]) f hf) ihrest
termination_by structural es
end

/-- Unfolding of the loop at a non-key-matching head entry whose subtree
survives filtering. -/
theorem filterEntries_cons_kept (k : String) (v : JValue) (rest : JEntries)
    (term : String) (path : List String) (f : JValue)
    (hk : jsIncludes k term = false)
    (hf : (filterTree v term (path ++ [k])).1 = some f) :
    filterEntries (.cons k v rest) term path =
      (.cons k f (filterEntries rest term path).1,
       (filterTree v term (path ++ [k])).2
         ++ (filterEntries rest term path).2.1,
       true) := by
  simp [filterEntries, hk, hf]

/-- Unfolding of the loop at a non-key-matching head entry whose subtree
is pruned: the entry is omitted, but the recursive call's matches (always
empty here) are still appended. -/
theorem filterEntries_cons_dropped (k : String) (v : JValue)
    (rest : JEntries) (term : String) (path : List String)
    (hk : jsIncludes k term = false)
    (hf : (filterTree v term (path ++ [k])).1 = none) :
    filterEntries (.cons k v rest) term path =
      ((filterEntries rest term path).1,
       (filterTree v term (path ++ [k])).2
         ++ (filterEntries rest term path).2.1,
       (filterEntries rest term path).2.2) := by
  simp [filterEntries, hk, hf]

/-- If the key of a present entry matches the term, the loop keeps that
entry verbatim, sets the flag, and retains all the matches appended by the
recursive call on its value. -/
theorem filterEntries_find_keyMatch (es : JEntries) (k : String)
    (v : JValue) (term : String) (path : List String)
    (hfind : es.find k = some v) (hk : jsIncludes k term = true) :
    (filterEntries es term path).2.2 = true ∧
    (filterEntries es term path).1.find k = some v ∧
    ∀ q ∈ (filterTree v term (path ++ [k])).2,
      q ∈ (filterEntries es term path).2.1 :=
  match es with
  | .nil => by simp [JEntries.find] at hfind
  | .cons k0 v0 rest => by
      by_cases hkk : k0 = k
      · subst hkk
        simp only [JEntries.find, if_pos] at hfind
        simp only [Option.some.injEq] at hfind
        subst hfind
        rw [filterEntries_cons_keyMatch k0 v0 rest term path hk]
        refine ⟨rfl, by simp [JEntries.find], ?_⟩
        intro q hq
        exact List.mem_append_left _ (List.mem_append_left _ hq)
      · simp only [JEntries.find, if_neg hkk] at hfind
        have ih := filterEntries_find_keyMatch rest k v term path hfind hk
        by_cases hk0 : jsIncludes k0 term = true
        · rw [filterEntries_cons_keyMatch k0 v0 rest term path hk0]
          refine ⟨rfl, ?_, ?_⟩
          · simp only [JEntries.find, if_neg hkk]; exact ih.2.1
          · intro q hq
            exact List.mem_append_right _ (ih.2.2 q hq)
        · simp only [Bool.not_eq_true] at hk0
          rcases hf0 : (filterTree v0 term (path ++ [k0])).1 with _ | f0
          · rw [filterEntries_cons_dropped k0 v0 rest term path hk0 hf0]
            exact ⟨ih.1, ih.2.1,
              fun q hq => List.mem_append_right _ (ih.2.2 q hq)⟩
          · rw [filterEntries_cons_kept k0 v0 rest term path f0 hk0 hf0]
            refine ⟨rfl, ?_, ?_⟩
            · simp only [JEntries.find, if_neg hkk]; exact ih.2.1
            · intro q hq
              exact List.mem_append_right _ (ih.2.2 q hq)
termination_by structural es

/-- If the key of a present entry does not match but filtering its value
survives, the loop keeps the entry bound to the filtered value, sets the
flag, and retains the matches appended by the recursive call. -/
theorem filterEntries_find_noKeyMatch (es : JEntries) (k : String)
    (v : JValue) (term : String) (path : List String) (f : JValue)
    (hfind : es.find k = some v) (hk : jsIncludes k term = false)
    (hf : (filterTree v term (path ++ [k])).1 = some f) :
    (filterEntries es term path).2.2 = true ∧
    (filterEntries es term path).1.find k = some f ∧
    ∀ q ∈ (filterTree v term (path ++ [k])).2,
      q ∈ (filterEntries es term path).2.1 :=
  match es with
  | .nil => by simp [JEntries.find] at hfind
  | .cons k0 v0 rest => by
      by_cases hkk : k0 = k
      · subst hkk
        simp only [JEntries.find, if_pos] at hfind
        simp only [Option.some.injEq] at hfind
        subst hfind
        rw [filterEntries_cons_kept k0 v0 rest term path f hk hf]
        refine ⟨rfl, by simp [JEntries.find], ?_⟩
        intro q hq
        exact List.mem_append_left _ hq
      · simp only [JEntries.find, if_neg hkk] at hfind
        have ih := filterEntries_find_noKeyMatch rest k v term path f
          hfind hk hf
        by_cases hk0 : jsIncludes k0 term = true
        · rw [filterEntries_cons_keyMatch k0 v0 rest term path hk0]
          refine ⟨rfl, ?_, ?_⟩
          · simp only [JEntries.find, if_neg hkk]; exact ih.2.1
          · intro q hq
            exact List.mem_append_right _ (ih.2.2 q hq)
        · simp only [Bool.not_eq_true] at hk0
          rcases hf0 : (filterTree v0 term (path ++ [k0])).1 with _ | f0
          · rw [filterEntries_cons_dropped k0 v0 rest term path hk0 hf0]
            exact ⟨ih.1, ih.2.1,
              fun q hq => List.mem_append_right _ (ih.2.2 q hq)⟩
          · rw [filterEntries_cons_kept k0 v0 rest term path f0 hk0 hf0]
            refine ⟨rfl, ?_, ?_⟩
            · simp only [JEntries.find, if_neg hkk]; exact ih.2.1
            · intro q hq
              exact List.mem_append_right _ (ih.2.2 q hq)
termination_by structural es

/-- Keys of the kept entries all occur among the original keys. -/
theorem filterEntries_keys_subset (es : JEntries) (term : String)
    (path : List String) :
    ∀ k, k ∈ (filterEntries es term path).1.keys → k ∈ es.keys :=
  match es with
  | .nil => by
      intro k hk
      have he : (filterEntries JEntries.nil term path).1 = JEntries.nil := by
        simp [filterEntries]
      rw [he] at hk
      simp [JEntries.keys] at hk
  | .cons k0 v0 rest => by
      intro k hk
      have ih := filterEntries_keys_subset rest term path
      by_cases hk0 : jsIncludes k0 term = true
      · rw [filterEntries_cons_keyMatch k0 v0 rest term path hk0] at hk
        simp only [JEntries.keys, List.mem_cons] at hk ⊢
        exact hk.imp id (ih k)
      · simp only [Bool.not_eq_true] at hk0
        rcases hf0 : (filterTree v0 term (path ++ [k0])).1 with _ | f0
        · rw [filterEntries_cons_dropped k0 v0 rest term path hk0 hf0] at hk
          simp only [JEntries.keys, List.mem_cons]
          exact Or.inr (ih k hk)
        · rw [filterEntries_cons_kept k0 v0 rest term path f0 hk0 hf0] at hk
          simp only [JEntries.keys, List.mem_cons] at hk ⊢
          exact hk.imp id (ih k)
termination_by structural es

/-- If a present entry's key does not match and filtering its value is
pruned, then (with distinct keys) the key is absent from the kept
entries. -/
theorem filterEntries_find_dropped (es : JEntries) (k : String)
    (v : JValue) (term : String) (path : List String)
    (hfind : es.find k = some v) (hk : jsIncludes k term = false)
    (hf : (filterTree v term (path ++ [k])).1 = none)
    (hnd : noDup es.keys = true) :
    (filterEntries es term path).1.find k = none :=
  match es with
  | .nil => by simp [JEntries.find] at hfind
  | .cons k0 v0 rest => by
      by_cases hkk : k0 = k
      · subst hkk
        simp only [JEntries.find, if_pos] at hfind
        simp only [Option.some.injEq] at hfind
        subst hfind
        rw [filterEntries_cons_dropped k0 v0 rest term path hk hf]
        simp only [JEntries.keys, noDup, Bool.and_eq_true,
          decide_eq_true_eq] at hnd
        exact JEntries.find_eq_none _ _
          (fun hmem => hnd.1 (filterEntries_keys_subset rest term path k0 hmem))
      · simp only [JEntries.find, if_neg hkk] at hfind
        have hnd' : noDup rest.keys = true := by
          simp only [JEntries.keys, noDup, Bool.and_eq_true] at hnd
          exact hnd.2
        have ih := filterEntries_find_dropped rest k v term path
          hfind hk hf hnd'
        by_cases hk0 : jsIncludes k0 term = true
        · rw [filterEntries_cons_keyMatch k0 v0 rest term path hk0]
          simp only [JEntries.find, if_neg hkk]; exact ih
        · simp only [Bool.not_eq_true] at hk0
          rcases hf0 : (filterTree v0 term (path ++ [k0])).1 with _ | f0
          · rw [filterEntries_cons_dropped k0 v0 rest term path hk0 hf0]
            exact ih
          · rw [filterEntries_cons_kept k0 v0 rest term path f0 hk0 hf0]
            simp only [JEntries.find, if_neg hkk]; exact ih
termination_by structural es

/-- Lookup in a well-formed entry list yields a well-formed value. -/
theorem WFE_find (es : JEntries) (k : String) (v : JValue)
    (h : WFE es = true) (hfind : es.find k = some v) : WF v = true :=
  match es with
  | .nil => by simp [JEntries.find] at hfind
  | .cons k0 v0 rest => by
      simp only [WFE, Bool.and_eq_true] at h
      by_cases hkk : k0 = k
      · simp only [JEntries.find, if_pos hkk, Option.some.injEq] at hfind
        subst hfind; exact h.1
      · simp only [JEntries.find, if_neg hkk] at hfind
        exact WFE_find rest k v h.2 hfind
termination_by structural es

/-- A string leaf that matches the term is recorded (at the base path
extended by its key-path) and stays reachable in the filtered value. -/
theorem filterTree_finds_leaf (p : List String) (doc : JValue)
    (term : String) (path : List String) (s : String)
    (hleaf : getAtPath doc p = some (.str s))
    (hm : jsIncludes s term = true) :
    ∃ f, (filterTree doc term path).1 = some f ∧
      (path ++ p) ∈ (filterTree doc term path).2 ∧
      getAtPath f p = some (.str s) :=
  match p, doc with
  | [], doc => by
      simp only [getAtPath, Option.some.injEq] at hleaf
      subst hleaf
      refine ⟨.str s, ?_, ?_, ?_⟩ <;> simp [filterTree, hm, getAtPath]
  | k :: ps, .str s0 => by simp [getAtPath] at hleaf
  | k :: ps, .num _ => by simp [getAtPath] at hleaf
  | k :: ps, .bool _ => by simp [getAtPath] at hleaf
  | k :: ps, .null => by simp [getAtPath] at hleaf
  | k :: ps, .obj es => by
      rcases hfind : es.find k with _ | w
      · simp [getAtPath, hfind] at hleaf
      · simp only [getAtPath, hfind] at hleaf
        obtain ⟨fw, hf1, hf2, hf3⟩ :=
          filterTree_finds_leaf ps w term (path ++ [k]) s hleaf hm
        have heq : path ++ k :: ps = (path ++ [k]) ++ ps := by simp
        by_cases hk : jsIncludes k term = true
        · obtain ⟨hflag, hfindres, hmem⟩ :=
            filterEntries_find_keyMatch es k w term path hfind hk
          refine ⟨.obj (filterEntries es term path).1, ?_, ?_, ?_⟩
          · simp [filterTree, hflag]
          · have hmm := hmem _ hf2
            rw [heq]
            simpa [filterTree] using hmm
          · simp [getAtPath, hfindres, hleaf]
        · simp only [Bool.not_eq_true] at hk
          obtain ⟨hflag, hfindres, hmem⟩ :=
            filterEntries_find_noKeyMatch es k w term path fw hfind hk hf1
          refine ⟨.obj (filterEntries es term path).1, ?_, ?_, ?_⟩
          · simp [filterTree, hflag]
          · have hmm := hmem _ hf2
            rw [heq]
            simpa [filterTree] using hmm
          · simp [getAtPath, hfindres, hf3]
  | k :: ps, .arr es => by
      rcases hfind : es.find k with _ | w
      · simp [getAtPath, hfind] at hleaf
      · simp only [getAtPath, hfind] at hleaf
        obtain ⟨fw, hf1, hf2, hf3⟩ :=
          filterTree_finds_leaf ps w term (path ++ [k]) s hleaf hm
        have heq : path ++ k :: ps = (path ++ [k]) ++ ps := by simp
        by_cases hk : jsIncludes k term = true
        · obtain ⟨hflag, hfindres, hmem⟩ :=
            filterEntries_find_keyMatch es k w term path hfind hk
          refine ⟨.arr (filterEntries es term path).1, ?_, ?_, ?_⟩
          · simp [filterTree, hflag]
          · have hmm := hmem _ hf2
            rw [heq]
            simpa [filterTree] using hmm
          · simp [getAtPath, hfindres, hleaf]
        · simp only [Bool.not_eq_true] at hk
          obtain ⟨hflag, hfindres, hmem⟩ :=
            filterEntries_find_noKeyMatch es k w term path fw hfind hk hf1
          refine ⟨.arr (filterEntries es term path).1, ?_, ?_, ?_⟩
          · simp [filterTree, hflag]
          · have hmm := hmem _ hf2
            rw [heq]
            simpa [filterTree] using hmm
          · simp [getAtPath, hfindres, hf3]
termination_by structural p

/-- A leaf that does not match by value, below no matching key, is pruned
(at base path extended by its key-path). -/
theorem filterTree_prunes_leaf (p : List String) (doc : JValue)
    (term : String) (path : List String) (v : JValue)
    (hwf : WF doc = true) (hv : getAtPath doc p = some v)
    (hleaf : isLeaf v = true) (hnm : valueMatch v term = false)
    (hkeys : ∀ k ∈ p, jsIncludes k term = false) :
    absentIn (filterTree doc term path).1 p :=
  match p, doc with
  | [], .str s0 => by
      simp only [getAtPath, Option.some.injEq] at hv
      subst hv
      simp only [valueMatch] at hnm
      simp [filterTree, hnm, absentIn]
  | [], .num n => by
      simp only [getAtPath, Option.some.injEq] at hv
      subst hv
      simp [filterTree, absentIn]
  | [], .bool b => by
      simp only [getAtPath, Option.some.injEq] at hv
      subst hv
      simp [filterTree, absentIn]
  | [], .null => by
      simp only [getAtPath, Option.some.injEq] at hv
      subst hv
      simp [filterTree, absentIn]
  | [], .obj es => by
      simp only [getAtPath, Option.some.injEq] at hv
      subst hv
      simp [isLeaf] at hleaf
  | [], .arr es => by
      simp only [getAtPath, Option.some.injEq] at hv
      subst hv
      simp [isLeaf] at hleaf
  | k :: ps, .str _ => by simp [getAtPath] at hv
  | k :: ps, .num _ => by simp [getAtPath] at hv
  | k :: ps, .bool _ => by simp [getAtPath] at hv
  | k :: ps, .null => by simp [getAtPath] at hv
  | k :: ps, .obj es => by
      rcases hfind : es.find k with _ | w
      · simp [getAtPath, hfind] at hv
      · simp only [getAtPath, hfind] at hv
        have hk : jsIncludes k term = false := hkeys k (by simp)
        have hkeys' : ∀ k' ∈ ps, jsIncludes k' term = false :=
          fun k' hk' => hkeys k' (by simp [hk'])
        simp only [WF, Bool.and_eq_true] at hwf
        have hwfw : WF w = true := WFE_find es k w hwf.2 hfind
        have ih := filterTree_prunes_leaf ps w term (path ++ [k]) v
          hwfw hv hleaf hnm hkeys'
        rcases hfw : (filterTree w term (path ++ [k])).1 with _ | fw
        · have hdrop := filterEntries_find_dropped es k w term path
            hfind hk hfw hwf.1
          rcases hflag : (filterEntries es term path).2.2 with _ | _
          · have h1 : (filterTree (.obj es) term path).1 = none := by
              simp [filterTree, hflag]
            rw [h1]
            simp [absentIn]
          · have h1 : (filterTree (.obj es) term path).1 =
                some (.obj (filterEntries es term path).1) := by
              simp [filterTree, hflag]
            rw [h1]
            simp [absentIn, getAtPath, hdrop]
        · have hkept := filterEntries_find_noKeyMatch es k w term path fw
            hfind hk hfw
          have h1 : (filterTree (.obj es) term path).1 =
              some (.obj (filterEntries es term path).1) := by
            simp [filterTree, hkept.1]
          rw [h1]
          rw [hfw] at ih
          simp only [absentIn] at ih
          simp [absentIn, getAtPath, hkept.2.1, ih]
  | k :: ps, .arr es => by
      rcases hfind : es.find k with _ | w
      · simp [getAtPath, hfind] at hv
      · simp only [getAtPath, hfind] at hv
        have hk : jsIncludes k term = false := hkeys k (by simp)
        have hkeys' : ∀ k' ∈ ps, jsIncludes k' term = false :=
          fun k' hk' => hkeys k' (by simp [hk'])
        simp only [WF, Bool.and_eq_true] at hwf
        have hwfw : WF w = true := WFE_find es k w hwf.2 hfind
        have ih := filterTree_prunes_leaf ps w term (path ++ [k]) v
          hwfw hv hleaf hnm hkeys'
        rcases hfw : (filterTree w term (path ++ [k])).1 with _ | fw
        · have hdrop := filterEntries_find_dropped es k w term path
            hfind hk hfw hwf.1
          rcases hflag : (filterEntries es term path).2.2 with _ | _
          · have h1 : (filterTree (.arr es) term path).1 = none := by
              simp [filterTree, hflag]
            rw [h1]
            simp [absentIn]
          · have h1 : (filterTree (.arr es) term path).1 =
                some (.arr (filterEntries es term path).1) := by
              simp [filterTree, hflag]
            rw [h1]
            simp [absentIn, getAtPath, hdrop]
        · have hkept := filterEntries_find_noKeyMatch es k w term path fw
            hfind hk hfw
          have h1 : (filterTree (.arr es) term path).1 =
              some (.arr (filterEntries es term path).1) := by
            simp [filterTree, hkept.1]
          rw [h1]
          rw [hfw] at ih
          simp only [absentIn] at ih
          simp [absentIn, getAtPath, hkept.2.1, ih]
termination_by structural p


/-- The kept entries are exactly the original entries transformed by
keep-verbatim (key match), keep-filtered (surviving subtree) or omit
(pruned subtree), with keys and relative order untouched. -/
theorem filterEntries_toList_filterMap (es : JEntries) (term : String)
    (path : List String) :
    (filterEntries es term path).1.toList =
      es.toList.filterMap (fun kv =>
        if jsIncludes kv.1 term then some kv
        else match (filterTree kv.2 term (path ++ [kv.1])).1 with
          | some f => some (kv.1, f)
          | none => none) :=
  match es with
  | .nil => by
      have he : (filterEntries JEntries.nil term path).1 = JEntries.nil := by
        simp [filterEntries]
      rw [he]
      simp [JEntries.toList]
  | .cons k v rest => by
      have ih := filterEntries_toList_filterMap rest term path
      by_cases hk : jsIncludes k term = true
      · rw [filterEntries_cons_keyMatch k v rest term path hk]
        simp [JEntries.toList, ih, hk]
      · simp only [Bool.not_eq_true] at hk
        rcases hf : (filterTree v term (path ++ [k])).1 with _ | f
        · rw [filterEntries_cons_dropped k v rest term path hk hf]
          simp [JEntries.toList, ih, hk, hf]
        · rw [filterEntries_cons_kept k v rest term path f hk hf]
          simp [JEntries.toList, ih, hk, hf]
termination_by structural es

/-- C1: every mapping or sequence entry whose key (stringified,
lowercased) contains the non-empty term is included in the pruned result
bound to its original, unfiltered value, the kept flag is set, and the
entry's child path is recorded as a match. -/
theorem claim_keyMatch_keeps_original (pre post : JEntries) (k : String)
    (v : JValue) (term : String) (path : List String) (_hterm : term ≠ "")
    (hk : jsIncludes k term = true) :
    (k, v) ∈ (filterEntries (pre.append (.cons k v post)) term path).1.toList ∧
    (filterEntries (pre.append (.cons k v post)) term path).2.2 = true ∧
    (path ++ [k]) ∈ (filterEntries (pre.append (.cons k v post)) term path).2.1 := by
  rw [filterEntries_append pre (.cons k v post) term path,
      filterEntries_cons_keyMatch k v post term path hk]
  refine ⟨?_, ?_, ?_⟩
  · simp [JEntries.toList_append, JEntries.toList]
  · simp
  · simp

/-- Witness for C1 at the spec's example: `{"match_key": {"a": 1,
"b": 2}}` with term `"match"`; the memo returns the entire unmodified
subtree under `match_key`. -/
theorem claim_keyMatch_keeps_original_witness :
    (("match" : String) ≠ "") ∧
    ((("match_key" : String),
        JValue.obj (.cons "a" (.num 1) (.cons "b" (.num 2) .nil))) ∈
      (filterEntries (JEntries.nil.append (.cons "match_key"
          (.obj (.cons "a" (.num 1) (.cons "b" (.num 2) .nil))) .nil))
        "match" []).1.toList ∧
      (filterEntries (JEntries.nil.append (.cons "match_key"
          (.obj (.cons "a" (.num 1) (.cons "b" (.num 2) .nil))) .nil))
        "match" []).2.2 = true ∧
      (([] : List String) ++ ["match_key"]) ∈
        (filterEntries (JEntries.nil.append (.cons "match_key"
            (.obj (.cons "a" (.num 1) (.cons "b" (.num 2) .nil))) .nil))
          "match" []).2.1) ∧
    runFilter (some exKeyMatch) "match" = (some exKeyMatch, [["match_key"]]) :=
  ⟨by decide,
   claim_keyMatch_keeps_original .nil .nil "match_key"
     (.obj (.cons "a" (.num 1) (.cons "b" (.num 2) .nil))) "match" []
     (by decide) (by decide),
   by decide⟩

/-- C2: no false negatives — a string leaf containing the non-empty term
(case-insensitively) yields a match path targeting that leaf, and the
leaf stays reachable along its key-path in the pruned tree. -/
theorem claim_no_false_negatives (doc : JValue) (term : String)
    (p : List String) (s : String) (_hterm : term ≠ "")
    (hleaf : getAtPath doc p = some (.str s))
    (hm : jsIncludes s term = true) :
    ∃ f, (filterTree doc term []).1 = some f ∧
      p ∈ (filterTree doc term []).2 ∧ getAtPath f p = some (.str s) := by
  have h := filterTree_finds_leaf p doc term [] s hleaf hm
  simpa using h

/-- Witness for C2 at `{"x": {"y": "Hello World"}}` with term `"wor"`. -/
theorem claim_no_false_negatives_witness :
    (("wor" : String) ≠ "") ∧
    (∃ f, (filterTree (.obj (.cons "x" (.obj (.cons "y"
        (.str "Hello World") .nil)) .nil)) "wor" []).1 = some f ∧
      ["x", "y"] ∈ (filterTree (.obj (.cons "x" (.obj (.cons "y"
        (.str "Hello World") .nil)) .nil)) "wor" []).2 ∧
      getAtPath f ["x", "y"] = some (.str "Hello World")) :=
  ⟨by decide,
   claim_no_false_negatives
     (.obj (.cons "x" (.obj (.cons "y" (.str "Hello World") .nil)) .nil))
     "wor" ["x", "y"] "Hello World" (by decide) (by decide) (by decide)⟩

/-- C3: no false positives — a leaf that does not match by value, none of
whose path keys contains the term, is absent from the pruned tree. -/
theorem claim_no_false_positives (doc : JValue) (term : String)
    (p : List String) (v : JValue) (_hterm : term ≠ "")
    (hwf : WF doc = true) (hv : getAtPath doc p = some v)
    (hleaf : isLeaf v = true) (hnm : valueMatch v term = false)
    (hkeys : ∀ k ∈ p, jsIncludes k term = false) :
    absentIn (filterTree doc term []).1 p :=
  filterTree_prunes_leaf p doc term [] v hwf hv hleaf hnm hkeys

/-- Witness for C3 at the spec's example: `{"x": {"y": "nomatch"}}` with
term `"zzz"`; the memo returns the empty mapping, not one containing an
empty `"x"`. -/
theorem claim_no_false_positives_witness :
    absentIn (filterTree exPrune "zzz" []).1 ["x", "y"] ∧
    runFilter (some exPrune) "zzz" = (some (.obj .nil), []) :=
  ⟨claim_no_false_positives exPrune "zzz" ["x", "y"] (.str "nomatch")
     (by decide) (by decide) (by decide) (by decide) (by decide) (by decide),
   by decide⟩

/-- C4 counterexample: with the non-empty term `"zzz"` and an absent
(null) document, the memo returns null as the pruned value — not an empty
mapping, contradicting "never null or undefined". -/
theorem claim_absent_doc_counterexample :
    (runFilter none "zzz").1 = none ∧
    (runFilter none "zzz").1 ≠ some (.obj .nil) := by decide

/-- C4 amended: for every term, if the input document is absent/null the
memo returns the document itself (null) and an empty match list; the
fallback of `||` to an empty mapping applies only to a present document
whose filtering returns null. -/
theorem claim_absent_doc_amended (searchTerm : String) :
    runFilter none searchTerm = (none, []) := by
  simp [runFilter, jsFalsy]

/-- C5 counterexample: filtering `{"match_key": {"a": "matching"}}` with
term `"match"` — the recursive call on the key-matching entry's value
appends `["match_key","a"]` before the key-match `["match_key"]`, so the
key-match is not the only match recorded for the entry. -/
theorem claim_keyMatch_rescan_counterexample :
    (filterTree (.obj (.cons "match_key" (.obj (.cons "a" (.str "matching")
        .nil)) .nil)) "match" []).2 = [["match_key", "a"], ["match_key"]] ∧
    (filterTree (.obj (.cons "match_key" (.obj (.cons "a" (.str "matching")
        .nil)) .nil)) "match" []).2 ≠ [["match_key"]] := by decide

/-- C5 amended: the recursive filter call on a key-matching entry's value
is still performed and whatever match paths it appends are kept, followed
by the key-match at the entry's child path; the entry itself is kept with
its original value and the flag is set. -/
theorem claim_keyMatch_appends_subtree_matches (k : String) (v : JValue)
    (rest : JEntries) (term : String) (path : List String)
    (hk : jsIncludes k term = true) :
    filterEntries (.cons k v rest) term path =
      (.cons k v (filterEntries rest term path).1,
       (filterTree v term (path ++ [k])).2 ++ [path ++ [k]]
         ++ (filterEntries rest term path).2.1,
       true) :=
  filterEntries_cons_keyMatch k v rest term path hk

/-- Witness for the amended C5 at `{"match_key": {"a": "matching"}}`. -/
theorem claim_keyMatch_appends_subtree_matches_witness :
    jsIncludes "match_key" "match" = true ∧
    filterEntries (.cons "match_key" (.obj (.cons "a" (.str "matching")
        .nil)) .nil) "match" [] =
      (.cons "match_key" (.obj (.cons "a" (.str "matching") .nil))
        (filterEntries .nil "match" []).1,
       (filterTree (.obj (.cons "a" (.str "matching") .nil)) "match"
         (([] : List String) ++ ["match_key"])).2
         ++ [([] : List String) ++ ["match_key"]]
         ++ (filterEntries .nil "match" []).2.1,
       true) :=
  ⟨by decide,
   claim_keyMatch_appends_subtree_matches "match_key"
     (.obj (.cons "a" (.str "matching") .nil)) .nil "match" [] (by decide)⟩

/-- C6: the match list is produced in depth-first order following each
container's iteration order, with all matches inside an entry's subtree
listed before the key-match recorded for the entry itself. -/
theorem claim_match_order (doc : JValue) (term : String)
    (path : List String) :
    (filterTree doc term path).2 = specMatches doc term path :=
  filterTree_matches_spec doc term path

/-- C7: any non-null filtered value is structurally a subtree of the
original — no key renamed, no value invented, sibling order preserved. -/
theorem claim_structural_subtree (doc : JValue) (term : String)
    (path : List String) (f : JValue)
    (h : (filterTree doc term path).1 = some f) : IsSub f doc :=
  filterTree_isSub doc term path f h

/-- Witness for C7 at `{"x": "foo", "y": "hello match"}` with term
`"match"`: the pruned tree keeps only the `y` entry. -/
theorem claim_structural_subtree_witness :
    IsSub (.obj (.cons "y" (.str "hello match") .nil))
      (.obj (.cons "x" (.str "foo")
        (.cons "y" (.str "hello match") .nil))) :=
  claim_structural_subtree
    (.obj (.cons "x" (.str "foo") (.cons "y" (.str "hello match") .nil)))
    "match" [] (.obj (.cons "y" (.str "hello match") .nil)) (by decide)

/-- C8: under an active (truthy) search term, a node at a key-path
expands iff some recorded match path, dot-joined, starts with the
dot-joined key-path (string prefix, not segment-wise). -/
theorem claim_expand_dotjoin (searchTerm : String)
    (mps : List (List String)) (keyPath : List String)
    (h : searchTerm ≠ "") :
    shouldExpandNodeInitially searchTerm mps keyPath = true ↔
      ∃ mp ∈ mps, (dotJoin keyPath).isPrefixOf (dotJoin mp) = true := by
  have hbe : (searchTerm == "") = false := by
    simp [h]
  simp [shouldExpandNodeInitially, hbe]

/-- Witness for C8 at the spec's quirk: match path `["a","bc"]` makes the
node at `["a","b"]` expand, because `"a.bc"` starts with `"a.b"`. -/
theorem claim_expand_dotjoin_witness :
    (("x" : String) ≠ "") ∧
    shouldExpandNodeInitially "x" [["a", "bc"]] ["a", "b"] = true :=
  ⟨by decide,
   (claim_expand_dotjoin "x" [["a", "bc"]] ["a", "b"] (by decide)).mpr
     (by decide)⟩

/-- C9: filtering with the empty search term returns the document
unchanged together with an empty match list, for any document. -/
theorem claim_empty_term_identity (doc : Option JValue) :
    runFilter doc "" = (doc, []) := by
  have h : (jsTrimLower "" == "") = true := by decide
  simp [runFilter, h]

/-- C10: filtering a dense array keeps each surviving element under its
original stringified index (pruned positions are left absent — a sparse
result), never compacting survivors to fresh consecutive indices. -/
theorem claim_sparse_array (l : List JValue) (term : String)
    (path : List String) (r : JValue)
    (h : (filterTree (mkArr l) term path).1 = some r) :
    ∃ es, r = .arr es ∧
      es.toList = (mkArrEntries 0 l).toList.filterMap (fun kv =>
        if jsIncludes kv.1 term then some kv
        else match (filterTree kv.2 term (path ++ [kv.1])).1 with
          | some f => some (kv.1, f)
          | none => none) ∧
      ∀ kv ∈ es.toList, kv.1 ∈ (mkArrEntries 0 l).keys := by
  rcases hflag : (filterEntries (mkArrEntries 0 l) term path).2.2 with _ | _
  · simp [mkArr, filterTree, hflag] at h
  · simp only [mkArr] at h
    simp only [filterTree, hflag, if_true, Option.some.injEq] at h
    refine ⟨(filterEntries (mkArrEntries 0 l) term path).1, ?_, ?_, ?_⟩
    · exact h.symm
    · exact filterEntries_toList_filterMap (mkArrEntries 0 l) term path
    · intro kv hkv
      have h1 : kv.1 ∈ (filterEntries (mkArrEntries 0 l) term path).1.keys := by
        rw [JEntries.keys_eq_map]
        exact List.mem_map_of_mem _ hkv
      exact filterEntries_keys_subset _ term path kv.1 h1

/-- Witness for C10 at `["aaa", "bbb"]` with term `"bbb"`: the survivor
keeps index key `"1"`; index `"0"` is absent, so the result is sparse and
not compacted. -/
theorem claim_sparse_array_witness :
    ((filterTree (mkArr [.str "aaa", .str "bbb"]) "bbb" []).1 =
      some (.arr (.cons "1" (.str "bbb") .nil))) ∧
    (∃ es, JValue.arr (.cons "1" (.str "bbb") .nil) = .arr es ∧
      es.toList = (mkArrEntries 0 [JValue.str "aaa", .str "bbb"]).toList.filterMap (fun kv =>
        if jsIncludes kv.1 "bbb" then some kv
        else match (filterTree kv.2 "bbb" (([] : List String) ++ [kv.1])).1 with
          | some f => some (kv.1, f)
          | none => none) ∧
      ∀ kv ∈ es.toList,
        kv.1 ∈ (mkArrEntries 0 [JValue.str "aaa", .str "bbb"]).keys) :=
  ⟨by decide,
   claim_sparse_array [.str "aaa", .str "bbb"] "bbb" []
     (.arr (.cons "1" (.str "bbb") .nil)) (by decide)⟩
